import Mathlib

/-!
Verification of the vs-base-kits core (emitter, lifecycle, throttler).

The definitions below are a shallow embedding of the TypeScript sources
`src/common/event.ts`, `src/common/lifecycle.ts` and `src/common/throttler.ts`.
The linked-list module (`linkedList.ts`, the spec's Sequence Store) is not part
of the provided sources; it is modelled from the spec as a list with
append-at-tail, remove-head and insertion-order iteration.
-/

/-! ## Emitter model (`src/common/event.ts`, `Emitter`)

Listener callbacks are arbitrary client code that may record the received
event, reentrantly call `fire` on the same emitter, or raise an exception.
They are embedded as small command programs; `record` logs the pair
(listener id, event value), `fireIf e0 v` calls `fire v` on the same emitter
when the received event equals `e0`, and `throwIf e0` raises when the
received event equals `e0`.  Execution is a fuel-indexed interpreter: every
internal step consumes one unit of fuel, so all scenarios of interest
evaluate with an explicitly computed fuel. -/

inductive Cmd where
  | record : Cmd
  | fireIf (e0 v : Nat) : Cmd
  | throwIf (e0 : Nat) : Cmd
deriving DecidableEq

structure EListener where
  id : Nat
  cmds : List Cmd
deriving DecidableEq

/-- Modelled from the spec: the listener Sequence Store and the delivery queue
are `LinkedList`s in the source (`linkedList.ts` is not among the provided
files); per spec section 4.1 they are ordered containers with O(1) append,
insertion-order iteration and head removal, i.e. lists.  `listeners = none`
models the emitter before `this._listeners` is first created. -/
structure EmState where
  listeners : Option (List EListener)
  deliveryQueue : List (EListener × Nat)
deriving DecidableEq

abbrev Trace := List (Nat × Nat)

/-- Result of running emitter code: normal return, a propagating listener
exception (carrying the emitter state left behind), or fuel exhaustion. -/
inductive FireRes where
  | ok (st : EmState) (tr : Trace)
  | err (st : EmState) (tr : Trace)
  | nofuel
deriving DecidableEq

/-- The three mutually recursive activities of `Emitter.fire`:
the body of `fire`, the `while` drain loop, and one listener invocation. -/
inductive Call where
  | fire (v : Nat) (st : EmState) (tr : Trace)
  | drain (st : EmState) (tr : Trace)
  | runC (cmds : List Cmd) (i ev : Nat) (st : EmState) (tr : Trace)

/-- Fueled interpreter for `Emitter.fire` (event.ts lines 261-289):
`fire` is a no-op when `_listeners` was never created; otherwise it appends
one (listener, event) pair per current listener to the shared delivery queue
and drains the queue FIFO, invoking each popped listener; a listener
exception propagates out immediately (the source's `catch` rethrows). -/
def interp : Nat → Call → FireRes
  | 0, _ => FireRes.nofuel
  | fuel+1, Call.fire v st tr =>
    match st.listeners with
    | none => FireRes.ok st tr
    | some ls =>
      interp fuel (Call.drain { st with deliveryQueue := st.deliveryQueue ++ ls.map (fun l => (l, v)) } tr)
  | fuel+1, Call.drain st tr =>
    match st.deliveryQueue with
    | [] => FireRes.ok st tr
    | (l, ev) :: rest =>
      interp fuel (Call.runC l.cmds l.id ev { st with deliveryQueue := rest } tr)
  | fuel+1, Call.runC [] _ _ st tr => interp fuel (Call.drain st tr)
  | fuel+1, Call.runC (c :: cs) i ev st tr =>
    match c with
    | Cmd.record => interp fuel (Call.runC cs i ev st (tr ++ [(i, ev)]))
    | Cmd.fireIf e0 v =>
      if ev = e0 then
        match interp fuel (Call.fire v st tr) with
        | FireRes.ok st2 tr2 => interp fuel (Call.runC cs i ev st2 tr2)
        | r => r
      else interp fuel (Call.runC cs i ev st tr)
    | Cmd.throwIf e0 =>
      if ev = e0 then FireRes.err st tr
      else interp fuel (Call.runC cs i ev st tr)

/-- Entry point `Emitter.fire v` from state `st` with empty trace history. -/
def fireF (fuel v : Nat) (st : EmState) (tr : Trace) : FireRes :=
  interp fuel (Call.fire v st tr)

/-- A listener that only records the events it receives. -/
def recL (i : Nat) : EListener := ⟨i, [Cmd.record]⟩

/-- Delivery-queue fragment of record-only listeners with given ids/events. -/
def recPairs (q : List (Nat × Nat)) : List (EListener × Nat) :=
  q.map (fun p => (recL p.1, p.2))

theorem recPairs_append (a b : List (Nat × Nat)) :
    recPairs (a ++ b) = recPairs a ++ recPairs b := by
  simp [recPairs]

/-- Draining a queue prefix of record-only listeners costs exactly 3 fuel per
entry, records each (id, event) pair in queue order, and then continues
draining the remainder of the queue. -/
theorem drain_recPairs (q : List (Nat × Nat)) : ∀ (k : Nat) (L : Option (List EListener))
    (q2 : List (EListener × Nat)) (tr : Trace),
    interp (3 * q.length + k) (Call.drain ⟨L, recPairs q ++ q2⟩ tr)
      = interp k (Call.drain ⟨L, q2⟩ (tr ++ q)) := by
  induction q with
  | nil => intro k L q2 tr; simp [recPairs]
  | cons p q ih =>
    intro k L q2 tr
    have hf : 3 * (p :: q).length + k = 3 * q.length + k + 2 + 1 := by
      simp [List.length_cons]; omega
    rw [hf]
    simp only [recPairs, List.map_cons, List.cons_append]
    show interp (3 * q.length + k + 2 + 1)
        (Call.drain ⟨L, (recL p.1, p.2) :: (recPairs q ++ q2)⟩ tr) = _
    rw [interp]
    show interp (3 * q.length + k + 1 + 1)
        (Call.runC [Cmd.record] p.1 p.2 ⟨L, recPairs q ++ q2⟩ tr) = _
    rw [interp]
    show interp (3 * q.length + k + 1)
        (Call.runC [] p.1 p.2 ⟨L, recPairs q ++ q2⟩ (tr ++ [(p.1, p.2)])) = _
    rw [interp]
    rw [ih k L q2 (tr ++ [(p.1, p.2)])]
    simp

/-- The `while` loop of `fire` stops exactly when the shared delivery queue is
empty, so whenever emitter code returns normally the queue has been fully
drained (nested entries included). -/
theorem interp_ok_queue_nil (fuel : Nat) :
    (∀ st tr st' tr', interp fuel (Call.drain st tr) = FireRes.ok st' tr' →
      st'.deliveryQueue = []) ∧
    (∀ cmds i ev st tr st' tr', interp fuel (Call.runC cmds i ev st tr) = FireRes.ok st' tr' →
      st'.deliveryQueue = []) ∧
    (∀ v ls st tr st' tr', st.listeners = some ls →
      interp fuel (Call.fire v st tr) = FireRes.ok st' tr' → st'.deliveryQueue = []) := by
  induction fuel with
  | zero => refine ⟨?_, ?_, ?_⟩ <;> intros <;> simp_all [interp]
  | succ n ih =>
    obtain ⟨ihd, ihr, ihf⟩ := ih
    refine ⟨?_, ?_, ?_⟩
    · intro st tr st' tr' h
      cases hq : st.deliveryQueue with
      | nil =>
        simp only [interp, hq] at h
        obtain ⟨rfl, rfl⟩ := h
        exact hq
      | cons p rest =>
        obtain ⟨l, ev⟩ := p
        simp only [interp, hq] at h
        exact ihr _ _ _ _ _ _ _ h
    · intro cmds i ev st tr st' tr' h
      cases cmds with
      | nil =>
        simp only [interp] at h
        exact ihd _ _ _ _ h
      | cons c cs =>
        cases c with
        | record =>
          simp only [interp] at h
          exact ihr _ _ _ _ _ _ _ h
        | fireIf e0 v' =>
          simp only [interp] at h
          split at h
          · split at h
            · exact ihr _ _ _ _ _ _ _ h
            · simp_all
          · exact ihr _ _ _ _ _ _ _ h
        | throwIf e0 =>
          simp only [interp] at h
          split at h
          · simp_all
          · exact ihr _ _ _ _ _ _ _ h
    · intro v ls st tr st' tr' hls h
      simp only [interp, hls] at h
      exact ihd _ _ _ _ h

/-- C1: firing an emitter holding the record-only listeners `ids` (subscribed
in that order, none disposed) with value `v` returns normally and invokes each
listener exactly once with argument `v`, in subscription order: the invocation
trace is exactly `ids` paired with `v`, in order. -/
theorem C1_fire_invokes_each_listener_once_in_order (ids : List Nat) (v : Nat) :
    fireF (3 * ids.length + 2) v ⟨some (ids.map recL), []⟩ []
      = FireRes.ok ⟨some (ids.map recL), []⟩ (ids.map (fun i => (i, v))) := by
  have hf : 3 * ids.length + 2 = 3 * ids.length + 1 + 1 := by omega
  rw [fireF, hf, interp]
  have hq : (ids.map recL).map (fun l => (l, v))
      = recPairs (ids.map (fun i => (i, v))) := by
    simp [recPairs]
  simp only [List.nil_append, hq]
  have hlen : 3 * ids.length + 1 = 3 * (ids.map (fun i => (i, v))).length + 1 := by
    simp
  rw [hlen]
  have := drain_recPairs (ids.map (fun i => (i, v))) 1 (some (ids.map recL)) [] []
  simp only [List.append_nil] at this
  rw [this, interp]
  simp

/-- C2: a listener that reentrantly fires the same emitter appends the nested
pairs to the same shared delivery queue (second conjunct, definitional on the
source of `fire`); the outer drain pass serves them interleaved after the
outer call's still-pending pairs, and every delivery — nested ones included —
completes before the outer `fire` returns (first conjunct: listener 1 receives
event 1 and fires event 2; the flat trace interleaves the nested deliveries
behind listener 2's pending delivery of event 1; third conjunct: any normal
return of `fire` leaves the queue fully drained). -/
theorem C2_nested_fire_shares_queue_and_drains_before_return :
    (fireF 20 1 ⟨some [⟨1, [Cmd.record, Cmd.fireIf 1 2]⟩, recL 2], []⟩ []
      = FireRes.ok ⟨some [⟨1, [Cmd.record, Cmd.fireIf 1 2]⟩, recL 2], []⟩
          [(1, 1), (2, 1), (1, 2), (2, 2)]) ∧
    (∀ (fuel v : Nat) (ls : List EListener) (q : List (EListener × Nat)) (tr : Trace),
      fireF (fuel + 1) v ⟨some ls, q⟩ tr
        = interp fuel (Call.drain ⟨some ls, q ++ ls.map (fun l => (l, v))⟩ tr)) ∧
    (∀ (fuel v : Nat) (ls : List EListener) (st : EmState) (st' : EmState) (tr tr' : Trace),
      st.listeners = some ls → fireF fuel v st tr = FireRes.ok st' tr' →
      st'.deliveryQueue = []) := by
  refine ⟨by decide, fun fuel v ls q tr => rfl, ?_⟩
  intro fuel v ls st st' tr tr' hls h
  exact (interp_ok_queue_nil fuel).2.2 v ls st tr st' tr' hls h

/-- C2 witness: the general conjuncts of the C2 theorem instantiated at the
concrete reentrant scenario: the outer fire returns normally with the shared
delivery queue fully drained. -/
theorem C2_nested_fire_witness :
    (⟨some [⟨1, [Cmd.record, Cmd.fireIf 1 2]⟩, recL 2], []⟩ : EmState).deliveryQueue = [] :=
  C2_nested_fire_shares_queue_and_drains_before_return.2.2 20 1
    [⟨1, [Cmd.record, Cmd.fireIf 1 2]⟩, recL 2]
    ⟨some [⟨1, [Cmd.record, Cmd.fireIf 1 2]⟩, recL 2], []⟩
    ⟨some [⟨1, [Cmd.record, Cmd.fireIf 1 2]⟩, recL 2], []⟩
    [] [(1, 1), (2, 1), (1, 2), (2, 2)] rfl (by decide)

/-- C3: if the listener after the record-only block `pre` raises during
delivery, the exception propagates out of `fire` at once: the invocation trace
stops at `pre` (the queued `post` listeners are not invoked during this call)
and the undelivered (listener, event) pairs for `post` are left in the queue. -/
theorem C3_listener_exception_aborts_delivery_pass (pre post : List Nat) (t v : Nat) :
    fireF (3 * pre.length + 3) v
        ⟨some (pre.map recL ++ ⟨t, [Cmd.throwIf v]⟩ :: post.map recL), []⟩ []
      = FireRes.err
          ⟨some (pre.map recL ++ ⟨t, [Cmd.throwIf v]⟩ :: post.map recL),
            recPairs (post.map (fun i => (i, v)))⟩
          (pre.map (fun i => (i, v))) := by
  have hf : 3 * pre.length + 3 = 3 * pre.length + 2 + 1 := by omega
  rw [fireF, hf, interp]
  have hq : (pre.map recL ++ ⟨t, [Cmd.throwIf v]⟩ :: post.map recL).map (fun l => (l, v))
      = recPairs (pre.map (fun i => (i, v)))
        ++ (⟨t, [Cmd.throwIf v]⟩, v) :: recPairs (post.map (fun i => (i, v))) := by
    simp only [recPairs, List.map_append, List.map_cons, List.map_map]
    rfl
  simp only [List.nil_append, hq]
  have hlen : 3 * pre.length + 2 = 3 * (pre.map (fun i => (i, v))).length + 2 := by
    simp
  rw [hlen, drain_recPairs]
  show interp (1 + 1) _ = _
  rw [interp]
  show interp (0 + 1) _ = _
  rw [interp]
  simp

/-- C9: pairs left undelivered by an aborted fire stay in the emitter's
delivery queue; the next `fire w` appends its own pairs behind the leftovers
and delivers the stale pairs first, with their original event values (first
conjunct, general).  Second and third conjuncts: a concrete chain in which
listener 2 throws on event 1, leaving listener 3's pair queued, and the
following `fire 2` delivers the stale `(3, 1)` pair before any pair of the
new event. -/
theorem C9_stale_pairs_survive_and_deliver_first :
    (∀ (stale : List (Nat × Nat)) (ids : List Nat) (w : Nat),
      fireF (3 * (stale.length + ids.length) + 2) w ⟨some (ids.map recL), recPairs stale⟩ []
        = FireRes.ok ⟨some (ids.map recL), []⟩ (stale ++ ids.map (fun i => (i, w)))) ∧
    (fireF 20 1 ⟨some [recL 1, ⟨2, [Cmd.throwIf 1]⟩, recL 3], []⟩ []
      = FireRes.err ⟨some [recL 1, ⟨2, [Cmd.throwIf 1]⟩, recL 3], [(recL 3, 1)]⟩ [(1, 1)]) ∧
    (fireF 30 2 ⟨some [recL 1, ⟨2, [Cmd.throwIf 1]⟩, recL 3], [(recL 3, 1)]⟩ []
      = FireRes.ok ⟨some [recL 1, ⟨2, [Cmd.throwIf 1]⟩, recL 3], []⟩
          [(3, 1), (1, 2), (3, 2)]) := by
  refine ⟨?_, by decide, by decide⟩
  intro stale ids w
  have hf : 3 * (stale.length + ids.length) + 2 = 3 * (stale.length + ids.length) + 1 + 1 := by
    omega
  rw [fireF, hf, interp]
  have hq : recPairs stale ++ (ids.map recL).map (fun l => (l, w))
      = recPairs (stale ++ ids.map (fun i => (i, w))) := by
    simp [recPairs]
  simp only [hq]
  have hlen : 3 * (stale.length + ids.length) + 1
      = 3 * (stale ++ ids.map (fun i => (i, w))).length + 1 := by
    simp
  rw [hlen]
  have := drain_recPairs (stale ++ ids.map (fun i => (i, w))) 1
    (some (ids.map recL)) [] []
  simp only [List.append_nil] at this
  rw [this, interp]
  simp

/-! ## Throttler model (`src/common/throttler.ts`)

`Throttler.queue` pushes a fresh correlation id with the task factory onto the
pending queue, triggers `run`, and returns a promise whose executor subscribes
a listener on the internal `_onPromiseCompleted` emitter filtering by that id.
`run` (async) dequeues the head when idle, invokes its factory, awaits the
resulting promise, clears `activePromise`, fires the completion event, and
re-triggers itself.  The single-threaded event loop is modelled as a sequence
of operations: a `queue` call, or the settling (resolution/rejection) of the
active task's promise.  `generateUuid` is modelled as a counter (its sole
relied-upon property is freshness). -/

inductive ThOp where
  | queue (tag : Nat)
  | settleOk (v : Nat)
  | settleErr
deriving DecidableEq

inductive TEv where
  | invoked (id : Nat)
  | announced (id v : Nat)
deriving DecidableEq

structure ThrState where
  nextId : Nat
  queued : List (Nat × Nat)
  activePromise : Option Nat
  listeners : List Nat
  started : List Nat
  settledOk : List Nat
  settledErr : List Nat
  announced : List (Nat × Nat)
  resolvedCallers : List (Nat × Nat)
  trace : List TEv
deriving DecidableEq

def thrInit : ThrState := ⟨0, [], none, [], [], [], [], [], [], []⟩

/-- The synchronous part of `Throttler.run` up to its `await`: if the pending
queue is non-empty and no promise is active, splice off the head, invoke its
factory (recorded in `started` and the trace) and set `activePromise`.
Deeper recursive `run` calls see a non-null `activePromise` and return, so one
trigger starts at most one task. -/
def runOnce (s : ThrState) : ThrState :=
  match s.activePromise, s.queued with
  | none, (i, _t) :: rest =>
    { s with queued := rest, activePromise := some i,
             started := s.started ++ [i], trace := s.trace ++ [TEv.invoked i] }
  | _, _ => s

/-- One event-loop turn of the Throttler.
`queue tag`: `queue` pushes `(freshId, tag)`, calls `run` (which may start the
task and then suspends at `await`), then the returned promise's executor
subscribes the correlation listener on `_onPromiseCompleted`.
`settleOk v`: the active task's promise resolves with `v`; `run` resumes:
clears `activePromise`, fires `{id, result}` (each subscribed listener whose
id matches resolves its caller's promise), then re-invokes `run`.
`settleErr`: the active task's promise rejects; the `await` throws out of
`run`, so `activePromise` is never cleared, nothing is fired and `run` is not
re-invoked.  A promise settles at most once, so settling an already-settled
task is a no-op. -/
def stepOp (s : ThrState) (op : ThOp) : ThrState :=
  match op with
  | ThOp.queue tag =>
    let i := s.nextId
    let s2 := runOnce { s with nextId := i + 1, queued := s.queued ++ [(i, tag)] }
    { s2 with listeners := s2.listeners ++ [i] }
  | ThOp.settleOk v =>
    match s.activePromise with
    | some i =>
      if i ∈ s.settledOk ∨ i ∈ s.settledErr then s
      else
        runOnce
          { s with activePromise := none,
                   settledOk := s.settledOk ++ [i],
                   announced := s.announced ++ [(i, v)],
                   trace := s.trace ++ [TEv.announced i v],
                   resolvedCallers := s.resolvedCallers
                     ++ (s.listeners.filter (fun j => j == i)).map (fun j => (j, v)) }
    | none => s
  | ThOp.settleErr =>
    match s.activePromise with
    | some i =>
      if i ∈ s.settledOk ∨ i ∈ s.settledErr then s
      else { s with settledErr := s.settledErr ++ [i] }
    | none => s

def runOps (ops : List ThOp) : ThrState := ops.foldl stepOp thrInit

/-- A task is executing when its factory has been invoked and its promise has
not yet settled. -/
def executing (s : ThrState) (i : Nat) : Prop :=
  i ∈ s.started ∧ i ∉ s.settledOk ∧ i ∉ s.settledErr

instance (s : ThrState) (i : Nat) : Decidable (executing s i) := by
  unfold executing; infer_instance

/-- Invariant tying a Throttler state to its history: started tasks followed
by the pending ids are exactly the correlation ids handed out, in arrival
order; one completion listener was subscribed per id handed out; settled tasks
were started; every started task is settled or is the active one; the active
task was started and has not resolved; and caller promises have been resolved
exactly with the announced (id, result) pairs. -/
structure ThrInv (s : ThrState) : Prop where
  arrivals : s.started ++ s.queued.map Prod.fst = List.range s.nextId
  listenersAll : s.listeners = List.range s.nextId
  settledOkSub : ∀ j ∈ s.settledOk, j ∈ s.started
  settledErrSub : ∀ j ∈ s.settledErr, j ∈ s.started
  startedDone : ∀ j ∈ s.started, j ∈ s.settledOk ∨ j ∈ s.settledErr ∨ s.activePromise = some j
  activeFresh : ∀ i, s.activePromise = some i → i ∈ s.started ∧ i ∉ s.settledOk
  callersMatch : s.resolvedCallers = s.announced

theorem runOnce_listeners (s : ThrState) : (runOnce s).listeners = s.listeners := by
  unfold runOnce; split <;> rfl

theorem runOnce_nextId (s : ThrState) : (runOnce s).nextId = s.nextId := by
  unfold runOnce; split <;> rfl

theorem runOnce_settledOk (s : ThrState) : (runOnce s).settledOk = s.settledOk := by
  unfold runOnce; split <;> rfl

theorem runOnce_settledErr (s : ThrState) : (runOnce s).settledErr = s.settledErr := by
  unfold runOnce; split <;> rfl

theorem runOnce_announced (s : ThrState) : (runOnce s).announced = s.announced := by
  unfold runOnce; split <;> rfl

theorem runOnce_resolvedCallers (s : ThrState) :
    (runOnce s).resolvedCallers = s.resolvedCallers := by
  unfold runOnce; split <;> rfl

/-- Starting a task (`run`) does not read or write the completion emitter's
listener set, so
starting a task commutes with recording the new subscription. -/
theorem runOnce_set_listeners (s : ThrState) (x : List Nat) :
    { runOnce s with listeners := x } = runOnce { s with listeners := x } := by
  rcases s with ⟨n, q, a, l, st, so, se, an, rc, tr⟩
  cases a <;> cases q <;> rfl

theorem filter_range_beq (i n : Nat) (h : i < n) :
    (List.range n).filter (fun j => j == i) = [i] := by
  induction n with
  | zero => omega
  | succ m ih =>
    rw [List.range_succ m, List.filter_append]
    rcases Nat.lt_or_ge i m with hlt | hge
    · rw [ih hlt]
      have hne : (m == i) = false := by simp; omega
      simp [hne]
    · have hi : i = m := by omega
      subst hi
      have hnil : (List.range i).filter (fun j => j == i) = [] := by
        rw [List.filter_eq_nil_iff]
        intro a ha
        simp only [List.mem_range] at ha
        simp; omega
      simp [hnil]

theorem thrInv_runOnce {s : ThrState} (h : ThrInv s) : ThrInv (runOnce s) := by
  unfold runOnce
  split
  next i t rest hact hq =>
    have harr := h.arrivals
    rw [hq] at harr
    simp only [List.map_cons] at harr
    have hnd : (s.started ++ i :: rest.map Prod.fst).Nodup := by
      rw [harr]; exact List.nodup_range s.nextId
    have hdisj := (List.nodup_append.mp hnd).2.2
    have hiNot : i ∉ s.started := fun hmem => hdisj hmem (List.mem_cons_self i _)
    refine ⟨?_, ?_, ?_, ?_, ?_, ?_, ?_⟩
    · show (s.started ++ [i]) ++ rest.map Prod.fst = List.range s.nextId
      rw [List.append_assoc]
      simpa using harr
    · exact h.listenersAll
    · intro j hj
      exact List.mem_append_left _ (h.settledOkSub j hj)
    · intro j hj
      exact List.mem_append_left _ (h.settledErrSub j hj)
    · intro j hj
      rcases List.mem_append.mp hj with hjs | hji
      · rcases h.startedDone j hjs with hok | hrest
        · exact Or.inl hok
        · rcases hrest with herr | hactj
          · exact Or.inr (Or.inl herr)
          · rw [hact] at hactj; cases hactj
      · simp only [List.mem_singleton] at hji
        subst hji
        exact Or.inr (Or.inr rfl)
    · intro i' hi'
      have : i = i' := by simpa using hi'
      subst this
      refine ⟨List.mem_append_right _ (List.mem_singleton.mpr rfl), ?_⟩
      intro hmem
      exact hiNot (h.settledOkSub i hmem)
    · exact h.callersMatch
  next => exact h

theorem thrInv_step {s : ThrState} (h : ThrInv s) (op : ThOp) : ThrInv (stepOp s op) := by
  cases op with
  | queue tag =>
    show ThrInv { runOnce _ with listeners := _ }
    rw [runOnce_listeners, runOnce_set_listeners]
    apply thrInv_runOnce
    refine ⟨?_, ?_, ?_, ?_, ?_, ?_, ?_⟩
    · show s.started ++ (s.queued ++ [(s.nextId, tag)]).map Prod.fst = List.range (s.nextId + 1)
      rw [List.map_append, ← List.append_assoc, h.arrivals]
      simp [List.range_succ]
    · show s.listeners ++ [s.nextId] = List.range (s.nextId + 1)
      rw [h.listenersAll]
      simp [List.range_succ]
    · exact h.settledOkSub
    · exact h.settledErrSub
    · exact h.startedDone
    · exact h.activeFresh
    · exact h.callersMatch
  | settleOk v =>
    show ThrInv (match s.activePromise with | some i => _ | none => s)
    cases hact : s.activePromise with
    | none => exact h
    | some i =>
      simp only []
      split
      · exact h
      next hns =>
        have hiStarted := (h.activeFresh i hact).1
        have hiNotOk := (h.activeFresh i hact).2
        have hiLt : i < s.nextId := by
          have : i ∈ s.started ++ s.queued.map Prod.fst := List.mem_append_left _ hiStarted
          rw [h.arrivals] at this
          exact List.mem_range.mp this
        apply thrInv_runOnce
        refine ⟨?_, ?_, ?_, ?_, ?_, ?_, ?_⟩
        · exact h.arrivals
        · exact h.listenersAll
        · intro j hj
          rcases List.mem_append.mp hj with hjs | hji
          · exact h.settledOkSub j hjs
          · simp only [List.mem_singleton] at hji; subst hji; exact hiStarted
        · exact h.settledErrSub
        · intro j hj
          rcases h.startedDone j hj with hok | hrest
          · exact Or.inl (List.mem_append_left _ hok)
          · rcases hrest with herr | hactj
            · exact Or.inr (Or.inl herr)
            · rw [hact] at hactj
              have : j = i := by simpa using hactj.symm
              subst this
              exact Or.inl (List.mem_append_right _ (List.mem_singleton.mpr rfl))
        · intro i' hi'
          simp at hi'
        · show s.resolvedCallers ++ (s.listeners.filter (fun j => j == i)).map (fun j => (j, v))
            = s.announced ++ [(i, v)]
          rw [h.callersMatch, h.listenersAll, filter_range_beq i s.nextId hiLt]
          simp
  | settleErr =>
    show ThrInv (match s.activePromise with | some i => _ | none => s)
    cases hact : s.activePromise with
    | none => exact h
    | some i =>
      simp only []
      split
      · exact h
      next hns =>
        refine ⟨h.arrivals, h.listenersAll, h.settledOkSub, ?_, ?_, ?_, h.callersMatch⟩
        · intro j hj
          rcases List.mem_append.mp hj with hjs | hji
          · exact h.settledErrSub j hjs
          · simp only [List.mem_singleton] at hji; subst hji
            exact (h.activeFresh j hact).1
        · intro j hj
          rcases h.startedDone j hj with hok | hrest
          · exact Or.inl hok
          · rcases hrest with herr | hactj
            · exact Or.inr (Or.inl (List.mem_append_left _ herr))
            · rw [hact] at hactj
              have : j = i := by simpa using hactj.symm
              subst this
              exact Or.inr (Or.inl (List.mem_append_right _ (List.mem_singleton.mpr rfl)))
        · intro i' hi'
          have : i = i' := by simpa [hact] using hi'
          subst this
          exact ⟨(h.activeFresh i hact).1, (h.activeFresh i hact).2⟩

theorem thrInv_init : ThrInv thrInit := by
  refine ⟨?_, ?_, ?_, ?_, ?_, ?_, ?_⟩ <;> simp [thrInit]

theorem thrInv_foldl (ops : List ThOp) : ∀ s : ThrState, ThrInv s →
    ThrInv (ops.foldl stepOp s) := by
  induction ops with
  | nil => intro s h; exact h
  | cons op ops ih => intro s h; exact ih _ (thrInv_step h op)

theorem thrInv_runOps (ops : List ThOp) : ThrInv (runOps ops) :=
  thrInv_foldl ops thrInit thrInv_init

def isQueueOp : ThOp → Bool
  | ThOp.queue _ => true
  | _ => false

theorem stepOp_nextId (s : ThrState) (op : ThOp) :
    (stepOp s op).nextId = s.nextId + (if isQueueOp op then 1 else 0) := by
  cases op with
  | queue tag => show ({ runOnce _ with listeners := _ } : ThrState).nextId = _
                 rw [runOnce_nextId]; rfl
  | settleOk v =>
    show (match s.activePromise with | some i => _ | none => s).nextId = _
    cases s.activePromise with
    | none => simp [isQueueOp]
    | some i =>
      simp only []
      split
      · simp [isQueueOp]
      · rw [runOnce_nextId]; simp [isQueueOp]
  | settleErr =>
    show (match s.activePromise with | some i => _ | none => s).nextId = _
    cases s.activePromise with
    | none => simp [isQueueOp]
    | some i =>
      simp only []
      split <;> simp [isQueueOp]

theorem foldl_nextId (ops : List ThOp) : ∀ s : ThrState,
    (ops.foldl stepOp s).nextId = s.nextId + (ops.filter isQueueOp).length := by
  induction ops with
  | nil => intro s; simp
  | cons op ops ih =>
    intro s
    rw [List.foldl_cons, ih, stepOp_nextId]
    cases op <;> (simp [isQueueOp]; try omega)

theorem stepOp_settledErr (s : ThrState) (op : ThOp) (hop : op ≠ ThOp.settleErr) :
    (stepOp s op).settledErr = s.settledErr := by
  cases op with
  | queue tag => show ({ runOnce _ with listeners := _ } : ThrState).settledErr = _
                 rw [runOnce_settledErr]
  | settleOk v =>
    show (match s.activePromise with | some i => _ | none => s).settledErr = _
    cases s.activePromise with
    | none => rfl
    | some i =>
      simp only []
      split
      · rfl
      · rw [runOnce_settledErr]
  | settleErr => exact absurd rfl hop

theorem foldl_settledErr (ops : List ThOp) (hops : ∀ op ∈ ops, op ≠ ThOp.settleErr) :
    ∀ s : ThrState, (ops.foldl stepOp s).settledErr = s.settledErr := by
  induction ops with
  | nil => intro s; rfl
  | cons op ops ih =>
    intro s
    rw [List.foldl_cons, ih (fun o ho => hops o (List.mem_cons_of_mem op ho)),
      stepOp_settledErr s op (hops op (List.mem_cons_self op ops))]

/-- C8: every `queue` call subscribes one correlation listener on the internal
`_onPromiseCompleted` emitter and the handle is never disposed: a step only
ever appends to the listener set (first conjunct), and after any operation
sequence the listener count equals the total number of `queue` calls ever
made (second conjunct), so the count never decreases over the Throttler's
lifetime. -/
theorem C8_completion_listeners_accumulate :
    (∀ (s : ThrState) (op : ThOp), ∃ ext, (stepOp s op).listeners = s.listeners ++ ext) ∧
    (∀ ops : List ThOp,
      (runOps ops).listeners.length = (ops.filter isQueueOp).length) := by
  constructor
  · intro s op
    cases op with
    | queue tag =>
      refine ⟨[s.nextId], ?_⟩
      show ({ runOnce _ with listeners := _ } : ThrState).listeners = _
      rw [runOnce_listeners]
    | settleOk v =>
      refine ⟨[], ?_⟩
      show (match s.activePromise with | some i => _ | none => s).listeners = s.listeners ++ []
      cases s.activePromise with
      | none => simp
      | some i =>
        simp only []
        split
        · simp
        · rw [runOnce_listeners]; simp
    | settleErr =>
      refine ⟨[], ?_⟩
      show (match s.activePromise with | some i => _ | none => s).listeners = s.listeners ++ []
      cases s.activePromise with
      | none => simp
      | some i =>
        simp only []
        split <;> simp
  · intro ops
    have h1 := (thrInv_runOps ops).listenersAll
    have h2 : (runOps ops).nextId = (ops.filter isQueueOp).length := by
      have := foldl_nextId ops thrInit
      simpa [runOps, thrInit] using this
    rw [h1, List.length_range, h2]

/-- C4: queued tasks are started strictly in FIFO arrival order (the started
ids are an initial segment of the arrival order, first conjunct), every caller
promise is resolved exactly with the (id, result) pairs its own task announced
(second conjunct), and in the canonical two-task scenario the second factory
is invoked only after the first task's result is announced, each returned
future resolving with its own task's result (third conjunct, for arbitrary
task tags and results). -/
theorem C4_throttler_fifo_and_own_results :
    (∀ ops : List ThOp,
      (runOps ops).started = List.range (runOps ops).started.length ∧
      (runOps ops).resolvedCallers = (runOps ops).announced) ∧
    (∀ t1 t2 v1 v2 : Nat,
      (runOps [ThOp.queue t1, ThOp.queue t2, ThOp.settleOk v1, ThOp.settleOk v2]).trace
        = [TEv.invoked 0, TEv.announced 0 v1, TEv.invoked 1, TEv.announced 1 v2] ∧
      (runOps [ThOp.queue t1, ThOp.queue t2, ThOp.settleOk v1, ThOp.settleOk v2]).resolvedCallers
        = [(0, v1), (1, v2)]) := by
  constructor
  · intro ops
    have h := thrInv_runOps ops
    constructor
    · have harr := h.arrivals
      have hstart : (runOps ops).started
          = (List.range (runOps ops).nextId).take (runOps ops).started.length := by
        rw [← harr, List.take_left]
      have hle : (runOps ops).started.length ≤ (runOps ops).nextId := by
        have := congrArg List.length harr
        simp only [List.length_append, List.length_range] at this
        omega
      nth_rewrite 1 [hstart]
      rw [List.take_range, Nat.min_eq_left hle]
    · exact h.callersMatch
  · intro t1 t2 v1 v2
    constructor <;> rfl

/-- C7 counterexample: queue one task whose promise then rejects.  The `await`
in `run` throws before `this.activePromise = null` executes, so the state
reached has a non-null `activePromise` although no task is executing (task 0,
the only task ever started, has settled by rejection) — refuting the claimed
iff for this reachable state. -/
theorem C7_counterexample_rejection_leaves_active_set :
    (runOps [ThOp.queue 0, ThOp.settleErr]).activePromise = some 0 ∧
    (runOps [ThOp.queue 0, ThOp.settleErr]).started = [0] ∧
    ¬ executing (runOps [ThOp.queue 0, ThOp.settleErr]) 0 := by
  decide

/-- C7 amended: at most one task is ever in the dequeued-but-not-yet-settled
state, in every reachable state (first conjunct); and in every state reachable
without any task rejection, `activePromise` is non-null exactly when a task is
currently executing (second conjunct).  When a task's promise rejects,
`activePromise` keeps pointing at the settled task, which is why the
rejection-free restriction is needed. -/
theorem C7_active_iff_executing_without_rejection (ops : List ThOp) :
    (∀ i j : Nat, executing (runOps ops) i → executing (runOps ops) j → i = j) ∧
    ((∀ op ∈ ops, op ≠ ThOp.settleErr) →
      ∀ i : Nat, (runOps ops).activePromise = some i ↔ executing (runOps ops) i) := by
  have h := thrInv_runOps ops
  constructor
  · intro i j hi hj
    have hai : (runOps ops).activePromise = some i := by
      rcases h.startedDone i hi.1 with hok | hrest
      · exact absurd hok hi.2.1
      · rcases hrest with herr | hact
        · exact absurd herr hi.2.2
        · exact hact
    have haj : (runOps ops).activePromise = some j := by
      rcases h.startedDone j hj.1 with hok | hrest
      · exact absurd hok hj.2.1
      · rcases hrest with herr | hact
        · exact absurd herr hj.2.2
        · exact hact
    rw [hai] at haj
    simpa using haj
  · intro hne i
    have herrNil : (runOps ops).settledErr = [] := by
      have := foldl_settledErr ops hne thrInit
      simpa [runOps, thrInit] using this
    constructor
    · intro hact
      refine ⟨(h.activeFresh i hact).1, (h.activeFresh i hact).2, ?_⟩
      rw [herrNil]
      simp
    · intro hex
      rcases h.startedDone i hex.1 with hok | hrest
      · exact absurd hok hex.2.1
      · rcases hrest with herr | hact
        · exact absurd herr hex.2.2
        · exact hact

/-- C7 witness: the amended iff applied to the concrete rejection-free run
consisting of a single `queue` call, whose task 0 is started and unsettled. -/
theorem C7_active_iff_executing_witness :
    (runOps [ThOp.queue 5]).activePromise = some 0 ↔ executing (runOps [ThOp.queue 5]) 0 :=
  (C7_active_iff_executing_without_rejection [ThOp.queue 5]).2 (by decide) 0

/-- C10: if the first queued task's promise rejects, `run` never clears
`activePromise`, never fires the completion event, and never recurses: after
any further operations whatsoever, `activePromise` still points at task 0, no
other task factory has ever been invoked, nothing was announced on the
completion emitter, and no caller's future has resolved. -/
theorem C10_rejection_never_settles_and_blocks_queue (tag : Nat) (rest : List ThOp) :
    (runOps (ThOp.queue tag :: ThOp.settleErr :: rest)).activePromise = some 0 ∧
    (runOps (ThOp.queue tag :: ThOp.settleErr :: rest)).started = [0] ∧
    (runOps (ThOp.queue tag :: ThOp.settleErr :: rest)).announced = [] ∧
    (runOps (ThOp.queue tag :: ThOp.settleErr :: rest)).resolvedCallers = [] := by
  have hbase : stepOp (stepOp thrInit (ThOp.queue tag)) ThOp.settleErr
      = ⟨1, [], some 0, [0], [0], [], [0], [], [], [TEv.invoked 0]⟩ := rfl
  have key : ∀ (ops : List ThOp) (s : ThrState),
      s.activePromise = some 0 → 0 ∈ s.settledErr → s.started = [0] →
      s.announced = [] → s.resolvedCallers = [] →
      (ops.foldl stepOp s).activePromise = some 0 ∧
      (ops.foldl stepOp s).started = [0] ∧
      (ops.foldl stepOp s).announced = [] ∧
      (ops.foldl stepOp s).resolvedCallers = [] := by
    intro ops
    induction ops with
    | nil => intro s h1 h2 h3 h4 h5; exact ⟨h1, h3, h4, h5⟩
    | cons op ops ih =>
      intro s h1 h2 h3 h4 h5
      rw [List.foldl_cons]
      have hstep : (stepOp s op).activePromise = some 0 ∧ 0 ∈ (stepOp s op).settledErr ∧
          (stepOp s op).started = [0] ∧ (stepOp s op).announced = [] ∧
          (stepOp s op).resolvedCallers = [] := by
        cases op with
        | queue t =>
          have hro : runOnce { s with nextId := s.nextId + 1, queued := s.queued ++ [(s.nextId, t)] }
              = { s with nextId := s.nextId + 1, queued := s.queued ++ [(s.nextId, t)] } := by
            unfold runOnce
            split
            next i t' rest' hact hq => rw [h1] at hact; cases hact
            next => rfl
          simp only [stepOp]
          rw [hro]
          exact ⟨h1, h2, h3, h4, h5⟩
        | settleOk v =>
          simp only [stepOp]
          rw [h1]
          simp only []
          rw [if_pos (Or.inr h2)]
          exact ⟨h1, h2, h3, h4, h5⟩
        | settleErr =>
          simp only [stepOp]
          rw [h1]
          simp only []
          rw [if_pos (Or.inr h2)]
          exact ⟨h1, h2, h3, h4, h5⟩
      exact ih _ hstep.1 hstep.2.1 hstep.2.2.1 hstep.2.2.2.1 hstep.2.2.2.2
  have : runOps (ThOp.queue tag :: ThOp.settleErr :: rest)
      = rest.foldl stepOp (stepOp (stepOp thrInit (ThOp.queue tag)) ThOp.settleErr) := by
    simp [runOps]
  rw [this, hbase]
  exact key rest _ rfl (by simp) rfl rfl rfl

/-! ## Leak monitor model (`src/common/event.ts`, `LeakageMonitor` and the
subscription path of `Emitter.event`)

Call sites are identified by a number (standing for the captured stack trace
string).  The observed-count map is an insertion-ordered association list,
mirroring a JS `Map` (`set` of an existing key keeps its position, iteration
is insertion order).  `warnHalfCountdown` stores the monitor's
`_warnCountdown` doubled, so the source's `threshold * 0.5` reset and `-= 1`
decrements stay exact integers (`-= 1` becomes `-= 2`, the `<= 0` tests are
unchanged under doubling).  A warning is recorded as the reported
(most frequent call site, its count) pair. -/

structure LeakState where
  globalThreshold : Int
  customThreshold : Option Int
  monitorEnabled : Bool
  listenerCount : Nat
  stackCounts : List (Nat × Nat)
  warnHalfCountdown : Int
  warnings : List (Nat × Nat)
deriving DecidableEq

def stacksGet (m : List (Nat × Nat)) (k : Nat) : Nat :=
  match m with
  | [] => 0
  | (k2, c) :: rest => if k2 = k then c else stacksGet rest k

def stacksSet (m : List (Nat × Nat)) (k c : Nat) : List (Nat × Nat) :=
  match m with
  | [] => [(k, c)]
  | (k2, c2) :: rest => if k2 = k then (k2, c) :: rest else (k2, c2) :: stacksSet rest k c

/-- The source's scan for the most frequent call site: first entry wins ties
(`!topStack || topCount < count`). -/
def topEntry (m : List (Nat × Nat)) : Option (Nat × Nat) :=
  m.foldl
    (fun acc p => match acc with
      | none => some p
      | some q => if q.2 < p.2 then some p else some q)
    none

/-- Embedding of `LeakageMonitor.check` (event.ts lines 71-111): resolve the per-instance
threshold falling back to the global one; bail out when detection is disabled
or the listener count is still below the threshold; otherwise record the call
site, decrement the warning countdown, and when it reaches zero reset it to
half the threshold and emit one warning naming the most frequent call site. -/
def leakCheck (s : LeakState) (stackId listenerCount : Nat) : LeakState :=
  let threshold : Int :=
    match s.customThreshold with
    | some t => t
    | none => s.globalThreshold
  if threshold ≤ 0 ∨ (listenerCount : Int) < threshold then s
  else
    let stacks2 := stacksSet s.stackCounts stackId (stacksGet s.stackCounts stackId + 1)
    let cd := s.warnHalfCountdown - 2
    if cd ≤ 0 then
      { s with stackCounts := stacks2, warnHalfCountdown := threshold,
               warnings := s.warnings ++ [(topEntry stacks2).getD (0, 0)] }
    else
      { s with stackCounts := stacks2, warnHalfCountdown := cd }

/-- The leak-relevant slice of a subscription through `Emitter.event`
(event.ts lines 207-213): the monitor is consulted only when it exists
(global threshold was positive at emitter construction) and the current
listener count is at least 30; it is then passed the post-subscription count.
Afterwards the listener is recorded. -/
def subscribeL (s : LeakState) (callsite : Nat) : LeakState :=
  let s1 :=
    if s.monitorEnabled = true ∧ 30 ≤ s.listenerCount
    then leakCheck s callsite (s.listenerCount + 1)
    else s
  { s1 with listenerCount := s1.listenerCount + 1 }

/-- A fresh emitter under global threshold `global` and per-instance
threshold `custom`: the `LeakageMonitor` is created only when the global
threshold is positive at construction time (event.ts line 151). -/
def initLeak (global : Int) (custom : Option Int) : LeakState :=
  ⟨global, custom, decide (0 < global), 0, [], 0, []⟩

def subscribeMany (s : LeakState) (cs : List Nat) : LeakState :=
  cs.foldl subscribeL s

theorem subscribeMany_below_thirty (cs : List Nat) : ∀ s : LeakState,
    s.listenerCount + cs.length ≤ 30 →
    (subscribeMany s cs).warnings = s.warnings ∧
    (subscribeMany s cs).listenerCount = s.listenerCount + cs.length := by
  induction cs with
  | nil => intro s h; exact ⟨rfl, by simp [subscribeMany]⟩
  | cons c cs ih =>
    intro s h
    have hlt : ¬ 30 ≤ s.listenerCount := by
      simp only [List.length_cons] at h; omega
    have hstep : subscribeL s c = { s with listenerCount := s.listenerCount + 1 } := by
      unfold subscribeL
      rw [if_neg (fun hc => hlt hc.2)]
    have h2 : ({ s with listenerCount := s.listenerCount + 1 } : LeakState).listenerCount
        + cs.length ≤ 30 := by
      simp only [List.length_cons] at h ⊢; omega
    have htail := ih { s with listenerCount := s.listenerCount + 1 } h2
    have hunfold : subscribeMany s (c :: cs)
        = subscribeMany { s with listenerCount := s.listenerCount + 1 } cs := by
      show List.foldl subscribeL s (c :: cs) = _
      rw [List.foldl_cons, hstep]
      rfl
    rw [hunfold]
    refine ⟨?_, ?_⟩
    · rw [htail.1]
    · rw [htail.2]
      simp only [List.length_cons]
      omega

/-- C5 counterexample: global leak-warning threshold 2, a fresh emitter, three
subscriptions from the same call site and no disposals.  The claim requires
exactly one leak warning; the code logs none, because the subscription path
consults the leak monitor only once the listener count reaches 30
(`this._listeners.size >= 30`, event.ts line 209). -/
theorem C5_counterexample_threshold_two_three_subscriptions :
    (subscribeMany (initLeak 2 none) [7, 7, 7]).warnings.length = 0 ∧
    ¬ (subscribeMany (initLeak 2 none) [7, 7, 7]).warnings.length = 1 := by
  decide

/-- C5 amended: no leak warning is ever produced while fewer than 31 listeners
have been subscribed, whatever the thresholds (first conjunct); with global
threshold 2, the 31st undisposed subscription produces the first warning,
identifying the most frequent subscribing call site with its count (second
conjunct), and each further monitored subscription warns again, i.e. the
count must grow by the code's reset of half the threshold — 1 — between
warnings (third conjunct). -/
theorem C5_leak_warning_gated_at_thirty_listeners :
    (∀ (g : Int) (c : Option Int) (cs : List Nat), cs.length ≤ 30 →
      (subscribeMany (initLeak g c) cs).warnings = []) ∧
    ((subscribeMany (initLeak 2 none) (List.replicate 31 7)).warnings = [(7, 1)]) ∧
    ((subscribeMany (initLeak 2 none) (List.replicate 33 7)).warnings
      = [(7, 1), (7, 2), (7, 3)]) := by
  refine ⟨?_, by decide, by decide⟩
  intro g c cs h
  have := subscribeMany_below_thirty cs (initLeak g c) (by simpa [initLeak] using h)
  simpa [initLeak] using this.1

/-- C5 witness: the amended theorem's first conjunct at threshold 2 with three
same-call-site subscriptions: no warning is logged. -/
theorem C5_leak_warning_witness :
    (subscribeMany (initLeak 2 none) [7, 7, 7]).warnings = [] :=
  C5_leak_warning_gated_at_thirty_listeners.1 2 none [7, 7, 7] (by decide)

/-! ## Disposal sweep model (`src/common/lifecycle.ts`, `dispose` over an
iterable and `MultiDisposeError`)

A disposable is represented by its id together with the error its `dispose`
raises, if any.  The sweep attempts every element inside `try`/`catch`,
collecting errors; afterwards a single error is rethrown as-is and two or
more are wrapped in one `MultiDisposeError` carrying the full list. -/

structure FakeDisposable where
  id : Nat
  failure : Option Nat
deriving DecidableEq

inductive DisposeOutcome where
  | ok
  | single (e : Nat)
  | multi (es : List Nat)
deriving DecidableEq

/-- The `for (const d of arg) try { d.dispose() } catch (e) { errors.push(e) }`
loop: returns the ids whose dispose was attempted, in order, and the collected
errors, in order. -/
def disposeLoop (ds : List FakeDisposable) : List Nat × List Nat :=
  match ds with
  | [] => ([], [])
  | d :: rest =>
    let r := disposeLoop rest
    (d.id :: r.1,
      match d.failure with
      | some e => e :: r.2
      | none => r.2)

/-- Embedding of `dispose` (lifecycle.ts lines 90-115) on an iterable: run the sweep, then
rethrow a lone error unchanged or aggregate several into one
`MultiDisposeError`. -/
def disposeAll (ds : List FakeDisposable) : List Nat × DisposeOutcome :=
  let r := disposeLoop ds
  (r.1,
    match r.2 with
    | [] => DisposeOutcome.ok
    | [e] => DisposeOutcome.single e
    | es => DisposeOutcome.multi es)

theorem disposeLoop_eq (ds : List FakeDisposable) :
    disposeLoop ds = (ds.map FakeDisposable.id, ds.filterMap FakeDisposable.failure) := by
  induction ds with
  | nil => rfl
  | cons d rest ih =>
    rw [disposeLoop, ih]
    cases hf : d.failure <;> simp [List.filterMap_cons, hf]

/-- C6: a disposal sweep attempts every registered resource even when earlier
ones fail (first conjunct: the attempted ids are all of them, in order); with
no failure nothing is raised; exactly one failure is propagated unchanged,
not wrapped; two or more failures are aggregated into one composite failure
carrying the list of all collected errors. -/
theorem C6_dispose_attempts_all_and_aggregates_failures (ds : List FakeDisposable) :
    (disposeAll ds).1 = ds.map FakeDisposable.id ∧
    (ds.filterMap FakeDisposable.failure = [] → (disposeAll ds).2 = DisposeOutcome.ok) ∧
    (∀ e, ds.filterMap FakeDisposable.failure = [e] →
      (disposeAll ds).2 = DisposeOutcome.single e) ∧
    (2 ≤ (ds.filterMap FakeDisposable.failure).length →
      (disposeAll ds).2 = DisposeOutcome.multi (ds.filterMap FakeDisposable.failure)) := by
  refine ⟨?_, ?_, ?_, ?_⟩
  · simp [disposeAll, disposeLoop_eq]
  · intro h
    simp [disposeAll, disposeLoop_eq, h]
  · intro e h
    simp [disposeAll, disposeLoop_eq, h]
  · intro h
    rcases hE : ds.filterMap FakeDisposable.failure with _ | ⟨e1, _ | ⟨e2, es⟩⟩
    · rw [hE] at h; simp at h
    · rw [hE] at h; simp at h
    · simp [disposeAll, disposeLoop_eq, hE]

def demoDisposables : List FakeDisposable := [⟨1, some 10⟩, ⟨2, none⟩, ⟨3, some 30⟩]

/-- C6 witness: disposing resources 1 (fails with 10), 2 (succeeds) and
3 (fails with 30) attempts all three and raises one composite failure
carrying both errors. -/
theorem C6_dispose_witness :
    (disposeAll demoDisposables).1 = [1, 2, 3] ∧
    (disposeAll demoDisposables).2 = DisposeOutcome.multi [10, 30] := by
  have h := C6_dispose_attempts_all_and_aggregates_failures demoDisposables
  exact ⟨h.1, h.2.2.2 (by decide)⟩
